import Mathlib

/-!
Verification of `examples/nn/imagenet-dali.py` (heat repository).

Shallow embedding of the script's pure helpers and control flow:
Python floats are modelled as rationals, tensors of metric values as
lists of rationals, and the stateful pieces (`args.factor`, the
optimizer's parameter groups, the metric meters) as explicit state
passed through Lean functions.  Control flow of the `train` loop and of
`main` is modelled as the list of observable operations each performs.
-/

namespace ImagenetDali

/-! ### AverageMeter (lines 704-720)

```python
class AverageMeter(object):
    def reset(self):
        self.val = 0; self.avg = 0; self.sum = 0; self.count = 0
    def update(self, val, n=1):
        self.val = val
        self.sum += val * n
        self.count += n
        self.avg = self.sum / self.count
```
`count` only ever receives integer increments, so it is a `Nat`;
`val`, `sum`, `avg` are rationals. -/

structure AverageMeter where
  val : ℚ
  avg : ℚ
  sum : ℚ
  count : ℕ
deriving DecidableEq, Repr

def AverageMeter.reset : AverageMeter :=
  { val := 0, avg := 0, sum := 0, count := 0 }

def AverageMeter.update (m : AverageMeter) (val : ℚ) (n : ℕ) : AverageMeter :=
  let sum := m.sum + val * n
  let count := m.count + n
  { val := val, sum := sum, count := count, avg := sum / count }

/-- Running a whole sequence of `update` calls from a freshly `reset` meter. -/
def AverageMeter.runUpdates (updates : List (ℚ × ℕ)) : AverageMeter :=
  updates.foldl (fun m p => m.update p.1 p.2) AverageMeter.reset

/-! ### reduce_tensor (lines 765-768)

```python
def reduce_tensor(tensor, comm):
    rt = tensor / float(comm.size)
    comm.Allreduce(MPI.IN_PLACE, rt, MPI.SUM)
    return rt
```
The communicator is modelled as the list of every process's tensor
value (a scalar metric, as in the calls at lines 620-623); `Allreduce`
with `MPI.SUM` leaves on every process the sum of all contributions. -/

def reduce_tensor (tensors : List ℚ) : List ℚ :=
  let size : ℕ := tensors.length
  let rts := tensors.map (fun t => t / (size : ℚ))
  rts.map (fun _ => rts.sum)

/-! ### adjust_learning_rate (lines 723-746)

```python
def adjust_learning_rate(optimizer, epoch, step, len_epoch, htmodel, lr_adjust=None):
    if epoch // 30 > 0 and args.factor < epoch // 30:
        htmodel.reset_skips()
        args.factor += 1
    if epoch >= 80:
        args.factor += 1
    lr = args.lr * (0.1 ** args.factor)
    if epoch < 5 and step is not None:
        lr = lr * float(1 + step + epoch * len_epoch) / (5.0 * len_epoch)
    for param_group in optimizer.torch_optimizer.param_groups:
        param_group["lr"] = lr
```
The mutable state is `args.factor` together with the `lr` entries of
the optimizer's parameter groups. -/

structure LRState where
  factor : ℕ
  groupLRs : List ℚ
deriving DecidableEq, Repr

def adjust_learning_rate (argsLr : ℚ) (epoch : ℕ) (step : Option ℕ)
    (len_epoch : ℕ) (s : LRState) : LRState :=
  let factor := if epoch / 30 > 0 ∧ s.factor < epoch / 30 then s.factor + 1 else s.factor
  let factor := if epoch ≥ 80 then factor + 1 else factor
  let lr := argsLr * (1 / 10 : ℚ) ^ factor
  let lr :=
    match step with
    | some st => if epoch < 5 then lr * ((1 + st + epoch * len_epoch : ℕ) : ℚ) / (5 * len_epoch : ℚ) else lr
    | none => lr
  { factor := factor, groupLRs := s.groupLRs.map (fun _ => lr) }

/-! ### accuracy (lines 749-762)

```python
def accuracy(output, target, topk=(1,)):
    maxk = max(topk)
    batch_size = target.size(0)
    _, pred = output.topk(maxk, 1, True, True)
    pred = pred.t()
    correct = pred.eq(target.view(1, -1).expand_as(pred))
    res = []
    for k in topk:
        correct_k = correct[:k].view(-1).float().sum(0, keepdim=True)
        res.append(correct_k.mul_(100.0 / batch_size))
    return res
```
`output` is a batch of score rows, `target` the labels.
`torch.topk(maxk, 1, True, True)` returns, per row, the indices of the
`maxk` largest entries in decreasing score order; ties are broken
deterministically here by smaller index first. -/

/-- Insertion sort by a boolean "comes before" relation (used both for
`torch.topk`'s sorted index selection and for `sorted(...)` in `parse`). -/
def insertBy {α : Type} (before : α → α → Bool) (a : α) : List α → List α
  | [] => [a]
  | b :: l => if before a b then a :: b :: l else b :: insertBy before a l

def sortBy {α : Type} (before : α → α → Bool) : List α → List α
  | [] => []
  | a :: l => insertBy before a (sortBy before l)

/-- Index order used by `output.topk(maxk, 1, True, True)` on one row:
strictly larger score first, ties broken by smaller index. -/
def topkBefore (row : List ℚ) (i j : ℕ) : Bool :=
  row.getD i 0 > row.getD j 0 ∨ (row.getD i 0 = row.getD j 0 ∧ i < j)

/-- The indices of the `k` highest-scoring entries of `row`, in the
order `torch.topk` returns them. -/
def topkIdx (row : List ℚ) (k : ℕ) : List ℕ :=
  (sortBy (topkBefore row) (List.range row.length)).take k

/-- `correct[:k].view(-1).float().sum()`: over the batch, the number of
(`rank < k`, sample) pairs where the rank-th prediction equals the
sample's label.  `pred` holds one row of top-`maxk` indices per sample. -/
def correct_k (pred : List (List ℕ)) (target : List ℕ) (k : ℕ) : ℕ :=
  ((pred.zip target).map (fun pt => (pt.1.take k).count pt.2)).sum

def accuracy (output : List (List ℚ)) (target : List ℕ) (topk : List ℕ) : List ℚ :=
  let maxk := topk.foldr max 0
  let batch_size := target.length
  let pred := output.map (fun row => topkIdx row maxk)
  topk.map (fun k => (correct_k pred target k : ℚ) * (100 / (batch_size : ℚ)))

/-! ### The train loop body (lines 522-618)

One iteration of `for i, data in enumerate(train_loader)` in `train`,
as the sequence of observable operations it performs.  Profiling
(`args.prof`) defaults to -1 and only wraps the same operations in
nvtx ranges, so it is not modelled. -/

inductive TrainOp where
  | adjustLR
  | forward
  | lossCompute
  | zeroGrad
  | backward
  | optStep
  | meterUpdate
deriving DecidableEq, Repr

/-- Operations of train-loop iteration `i` (lines 535-588):
`adjust_learning_rate` first; in test mode iterations past 10 break out
before the forward pass; otherwise forward, loss, `zero_grad`,
`backward`, `step`, and the meters (`losses`, `top1`, `top5`,
`batch_time`) are updated only under the guard of line 567. -/
def trainIter (print_freq : ℕ) (test : Bool) (i train_loader_len : ℕ) : List TrainOp :=
  [TrainOp.adjustLR] ++
    (if test ∧ i > 10 then []
     else
       [TrainOp.forward, TrainOp.lossCompute, TrainOp.zeroGrad,
        TrainOp.backward, TrainOp.optStep] ++
         (if i % print_freq = 0 ∨ i = train_loader_len then [TrainOp.meterUpdate] else []))

/-! ### The epoch loop of main (lines 447-499) -/

inductive MainOp where
  | trainEpoch (epoch : ℕ)
  | validateRun (epoch : ℕ)
  | epochLossLogic (epoch : ℕ)
  | adjustLR (epoch : ℕ)
  | resetTrainLoader (epoch : ℕ)
  | resetValLoader (epoch : ℕ)
  | validateOnly
deriving DecidableEq, Repr

/-- The per-epoch block of `main`'s loop when `args.test` is false:
train (line 458), validate (466), `epoch_loss_logic` (469),
`adjust_learning_rate` (470), then both loader resets (498-499). -/
def mainEpochBlock (e : ℕ) : List MainOp :=
  [MainOp.trainEpoch e, MainOp.validateRun e, MainOp.epochLossLogic e,
   MainOp.adjustLR e, MainOp.resetTrainLoader e, MainOp.resetValLoader e]

/-- Observable operations of `main` after the loaders are built:
with `--evaluate`, a single validate and return (lines 447-449);
in test mode the loop breaks right after the first `train` (462-463);
otherwise the full per-epoch blocks for
`epoch in range(args.start_epoch, args.epochs)` (456-499). -/
def mainEvents (evaluate test : Bool) (start_epoch epochs : ℕ) : List MainOp :=
  if evaluate then [MainOp.validateOnly]
  else if test then
    if start_epoch < epochs then [MainOp.trainEpoch start_epoch] else []
  else (List.range' start_epoch (epochs - start_epoch)).flatMap mainEpochBlock

/-! ### parse (lines 34-176) -/

/-- What the script needs of `torchvision.models.__dict__`: the
attribute names and whether each is callable. -/
structure ModelEntry where
  name : String
  callable : Bool
deriving DecidableEq, Repr

/-- Python `str.islower()`: at least one cased character, and no cased
character is uppercase (ASCII suffices for torchvision names). -/
def pyIslower (s : String) : Bool :=
  s.data.any (fun c => c.isAlpha) && s.data.all (fun c => !c.isUpper)

/-- Python `s.startswith(pre)` on the underlying character sequences. -/
def pyStartswith (s pre : String) : Bool :=
  pre.data.isPrefixOf s.data

/-- Line 35-39: the accepted `--arch` choices. -/
def model_names (dict : List ModelEntry) : List String :=
  sortBy (fun a b => a < b)
    ((dict.filter (fun e => pyIslower e.name && !pyStartswith e.name "__" && e.callable)).map
      (fun e => e.name))

/-- `argparse` with `choices=model_names` accepts exactly the listed
names (Python's `in` membership check). -/
def archAccepted (dict : List ModelEntry) (a : String) : Bool :=
  decide (a ∈ model_names dict)

/-- The option defaults of `parse` (lines 70-144). -/
structure ParseDefaults where
  arch : String
  batch_size : ℕ
  epochs : ℕ
  start_epoch : ℕ
  workers : ℕ
  lr : ℚ
  momentum : ℚ
  weight_decay : ℚ
  print_freq : ℕ
  batch_skip : ℕ
  local_batch_skip : ℕ
deriving DecidableEq, Repr

def parseDefaults : ParseDefaults :=
  { arch := "resnet50", batch_size := 256, epochs := 90, start_epoch := 0,
    workers := 4, lr := 0.1, momentum := 0.9, weight_decay := 1e-4,
    print_freq := 10, batch_skip := 2, local_batch_skip := 1 }

/-! ### best_prec1 (lines 281, 473-475)

`best_prec1 = 0` initially; on rank 0 each epoch does
`best_prec1 = max(prec1, best_prec1)`. -/

def bestPrec1 (precs : List ℚ) : ℚ :=
  precs.foldl (fun best prec1 => max prec1 best) 0

/-! ### The inception_v3 check of main (lines 412-418) -/

def mainArchCheck (arch : String) : Except String (ℕ × ℕ) :=
  if arch = "inception_v3" then
    Except.error "Currently, inception_v3 is not supported by this example."
  else Except.ok (224, 256)

/-! ## Helper lemmas -/

theorem insertBy_perm {α : Type} (before : α → α → Bool) (a : α) (l : List α) :
    List.Perm (insertBy before a l) (a :: l) := by
  induction l with
  | nil => exact List.Perm.refl _
  | cons b l ih =>
    simp only [insertBy]
    split
    · exact List.Perm.refl _
    · exact (ih.cons b).trans (List.Perm.swap a b l)

theorem sortBy_perm {α : Type} (before : α → α → Bool) (l : List α) :
    List.Perm (sortBy before l) l := by
  induction l with
  | nil => exact List.Perm.refl _
  | cons a l ih => exact (insertBy_perm before a (sortBy before l)).trans (ih.cons a)

theorem mem_sortBy {α : Type} {before : α → α → Bool} {l : List α} {a : α} :
    a ∈ sortBy before l ↔ a ∈ l :=
  (sortBy_perm before l).mem_iff

theorem list_sum_map_div (l : List ℚ) (c : ℚ) :
    (l.map (fun t => t / c)).sum = l.sum / c := by
  induction l with
  | nil => simp
  | cons a l ih => simp [ih, add_div]

theorem foldl_max_spec (ps : List ℚ) (b : ℚ) :
    b ≤ ps.foldl (fun best p => max p best) b ∧
    (∀ q ∈ ps, q ≤ ps.foldl (fun best p => max p best) b) ∧
    (ps.foldl (fun best p => max p best) b = b ∨
      ps.foldl (fun best p => max p best) b ∈ ps) := by
  induction ps generalizing b with
  | nil => simp
  | cons a ps ih =>
    have h := ih (max a b)
    refine ⟨le_trans (le_max_right a b) h.1, ?_, ?_⟩
    · intro q hq
      rcases List.mem_cons.mp hq with h1 | hq2
      · subst h1
        exact le_trans (le_max_left _ _) h.1
      · exact h.2.1 q hq2
    · rcases h.2.2 with heq | hmem
      · rcases le_total a b with hab | hba
        · left
          rw [List.foldl_cons, heq, max_eq_right hab]
        · right
          rw [List.foldl_cons, heq, max_eq_left hba]
          exact List.mem_cons_self a ps
      · exact Or.inr (List.mem_cons_of_mem a hmem)

/-! ## Claims -/

/-- C2: `AverageMeter` implements a running average: starting from
`reset` (all fields zero), after any sequence of `update(val_i, n_i)`
calls with each `n_i > 0`, `sum = Σ val_i * n_i`, `count = Σ n_i`,
`avg = sum / count`, and `val` is the last `val_i` passed. -/
theorem averageMeter_running_average (updates : List (ℚ × ℕ))
    (hn : ∀ p ∈ updates, 0 < p.2) :
    (AverageMeter.runUpdates updates).sum =
      (updates.map (fun p => p.1 * (p.2 : ℚ))).sum ∧
    (AverageMeter.runUpdates updates).count = (updates.map (fun p => p.2)).sum ∧
    (AverageMeter.runUpdates updates).avg =
      (AverageMeter.runUpdates updates).sum /
        (((AverageMeter.runUpdates updates).count : ℕ) : ℚ) ∧
    ∀ h : updates ≠ [], (AverageMeter.runUpdates updates).val = (updates.getLast h).1 := by
  clear hn
  induction updates using List.reverseRecOn with
  | nil =>
    refine ⟨rfl, rfl, by simp [AverageMeter.runUpdates, AverageMeter.reset], ?_⟩
    intro h
    exact absurd rfl h
  | append_singleton us u ih =>
    have hstep : AverageMeter.runUpdates (us ++ [u]) =
        (AverageMeter.runUpdates us).update u.1 u.2 := by
      simp [AverageMeter.runUpdates]
    refine ⟨?_, ?_, ?_, ?_⟩
    · simp [hstep, AverageMeter.update, ih.1]
    · simp [hstep, AverageMeter.update, ih.2.1]
    · simp [hstep, AverageMeter.update]
    · intro h
      simp [hstep, AverageMeter.update, List.getLast_append]

/-- Witness for C2 at the update sequence [(2, 3), (4, 1)]. -/
theorem averageMeter_running_average_witness :
    (AverageMeter.runUpdates [((2 : ℚ), 3), (4, 1)]).sum =
      ([((2 : ℚ), 3), (4, 1)].map (fun p => p.1 * (p.2 : ℚ))).sum ∧
    (AverageMeter.runUpdates [((2 : ℚ), 3), (4, 1)]).count =
      ([((2 : ℚ), 3), (4, 1)].map (fun p => p.2)).sum ∧
    (AverageMeter.runUpdates [((2 : ℚ), 3), (4, 1)]).avg =
      (AverageMeter.runUpdates [((2 : ℚ), 3), (4, 1)]).sum /
        (((AverageMeter.runUpdates [((2 : ℚ), 3), (4, 1)]).count : ℕ) : ℚ) ∧
    ∀ h : [((2 : ℚ), 3), (4, 1)] ≠ [],
      (AverageMeter.runUpdates [((2 : ℚ), 3), (4, 1)]).val =
        ([((2 : ℚ), 3), (4, 1)].getLast h).1 :=
  averageMeter_running_average [((2 : ℚ), 3), (4, 1)] (by decide)

/-- C5: `reduce_tensor` aggregates into the arithmetic mean over the
communicator: with the communicator modelled as the list of every
process's tensor value, each process receives the sum over all
processes of `tensor / comm.size`, i.e. the average of the per-process
tensors, and every process receives the same result. -/
theorem reduceTensor_allreduce_mean (tensors : List ℚ) (hne : tensors ≠ []) :
    (reduce_tensor tensors).length = tensors.length ∧
    ∀ r ∈ reduce_tensor tensors, r = tensors.sum / (tensors.length : ℚ) := by
  clear hne
  constructor
  · simp [reduce_tensor]
  · intro r hr
    simp only [reduce_tensor, List.mem_map] at hr
    obtain ⟨x, _, rfl⟩ := hr
    exact list_sum_map_div tensors (tensors.length : ℚ)

/-- Witness for C5 on a three-process communicator holding [1, 2, 6]. -/
theorem reduceTensor_allreduce_mean_witness :
    (reduce_tensor [(1 : ℚ), 2, 6]).length = ([(1 : ℚ), 2, 6] : List ℚ).length ∧
    ∀ r ∈ reduce_tensor [(1 : ℚ), 2, 6],
      r = ([(1 : ℚ), 2, 6] : List ℚ).sum / (([(1 : ℚ), 2, 6] : List ℚ).length : ℚ) :=
  reduceTensor_allreduce_mean [(1 : ℚ), 2, 6] (by decide)

/-- C9: on rank 0, `best_prec1` starts at 0 and each epoch becomes
`max(prec1, best_prec1)`: after any sequence of observed precisions it
equals the maximum of 0 and all of them (it is 0 or one of them, bounds
every one of them, and is at least 0), and appending one more epoch's
precision can never lower it. -/
theorem bestPrec1_running_max (precs : List ℚ) (p : ℚ) :
    bestPrec1 [] = 0 ∧
    bestPrec1 (precs ++ [p]) = max p (bestPrec1 precs) ∧
    bestPrec1 precs ≤ bestPrec1 (precs ++ [p]) ∧
    0 ≤ bestPrec1 precs ∧
    (∀ q ∈ precs, q ≤ bestPrec1 precs) ∧
    (bestPrec1 precs = 0 ∨ bestPrec1 precs ∈ precs) := by
  have h := foldl_max_spec precs 0
  have happ : bestPrec1 (precs ++ [p]) = max p (bestPrec1 precs) := by
    simp [bestPrec1, List.foldl_append]
  refine ⟨rfl, happ, ?_, h.1, h.2.1, h.2.2⟩
  rw [happ]
  exact le_max_right _ _

/-- C10: `main` raises the `RuntimeError` whenever `args.arch` is
`"inception_v3"`, even though `"inception_v3"` is among the `--arch`
choices whenever torchvision exposes it as a callable; every other
architecture passes the check with `crop_size = 224`, `val_size = 256`. -/
theorem main_inception_v3_check (dict : List ModelEntry)
    (hmem : ModelEntry.mk "inception_v3" true ∈ dict)
    (a : String) (ha : a ≠ "inception_v3") :
    mainArchCheck "inception_v3" =
      Except.error "Currently, inception_v3 is not supported by this example." ∧
    archAccepted dict "inception_v3" = true ∧
    mainArchCheck a = Except.ok (224, 256) := by
  refine ⟨rfl, ?_, by simp [mainArchCheck, ha]⟩
  have hin : "inception_v3" ∈ model_names dict := by
    rw [model_names, mem_sortBy, List.mem_map]
    refine ⟨ModelEntry.mk "inception_v3" true, ?_, rfl⟩
    rw [List.mem_filter]
    exact ⟨hmem, by decide⟩
  simpa [archAccepted] using hin

/-- Witness for C10 with a one-entry model zoo and alternative "resnet50". -/
theorem main_inception_v3_check_witness :
    mainArchCheck "inception_v3" =
      Except.error "Currently, inception_v3 is not supported by this example." ∧
    archAccepted [ModelEntry.mk "inception_v3" true] "inception_v3" = true ∧
    mainArchCheck "resnet50" = Except.ok (224, 256) :=
  main_inception_v3_check [ModelEntry.mk "inception_v3" true]
    (by decide) "resnet50" (by decide)

/-- C8: `parse` yields the documented defaults when flags are absent,
and `--arch` accepts exactly the lowercase, non-dunder, callable
attribute names of the torchvision model zoo. -/
theorem parse_defaults_and_arch_choices (dict : List ModelEntry) (a : String) :
    parseDefaults.arch = "resnet50" ∧
    parseDefaults.batch_size = 256 ∧
    parseDefaults.epochs = 90 ∧
    parseDefaults.start_epoch = 0 ∧
    parseDefaults.workers = 4 ∧
    parseDefaults.lr = 1 / 10 ∧
    parseDefaults.momentum = 9 / 10 ∧
    parseDefaults.weight_decay = 1 / 10000 ∧
    parseDefaults.print_freq = 10 ∧
    parseDefaults.batch_skip = 2 ∧
    parseDefaults.local_batch_skip = 1 ∧
    (archAccepted dict a = true ↔
      ∃ e ∈ dict, e.name = a ∧ pyIslower a = true ∧
        pyStartswith a "__" = false ∧ e.callable = true) := by
  refine ⟨rfl, rfl, rfl, rfl, rfl, by norm_num [parseDefaults],
    by norm_num [parseDefaults], by norm_num [parseDefaults], rfl, rfl, rfl, ?_⟩
  rw [archAccepted, decide_eq_true_iff, model_names, mem_sortBy, List.mem_map]
  constructor
  · rintro ⟨e, he, rfl⟩
    rw [List.mem_filter] at he
    have hp := he.2
    simp only [Bool.and_eq_true, Bool.not_eq_true'] at hp
    exact ⟨e, he.1, rfl, hp.1.1, hp.1.2, hp.2⟩
  · rintro ⟨e, he, rfl, hlow, hdun, hcall⟩
    refine ⟨e, ?_, rfl⟩
    rw [List.mem_filter]
    refine ⟨he, ?_⟩
    simp only [Bool.and_eq_true, Bool.not_eq_true']
    exact ⟨⟨hlow, hdun⟩, hcall⟩

/-- C1 counterexample: at `epoch = 80` (outside warmup, since
`80 ≥ 5`), two batch steps of the same epoch receive different learning
rates: the `epoch >= 80` branch increments `args.factor` on every call,
so with `args.lr = 1` and `factor = 2` the first call sets `1/1000` and
the very next call in the same epoch sets `1/10000`. -/
theorem adjustLR_not_constant_within_epoch :
    5 ≤ 80 ∧
    (adjust_learning_rate 1 80 (some 0) 100 (LRState.mk 2 [1])).groupLRs = [1 / 1000] ∧
    (adjust_learning_rate 1 80 (some 1) 100
        (adjust_learning_rate 1 80 (some 0) 100 (LRState.mk 2 [1]))).groupLRs = [1 / 10000] ∧
    (adjust_learning_rate 1 80 (some 0) 100 (LRState.mk 2 [1])).groupLRs ≠
      (adjust_learning_rate 1 80 (some 1) 100
          (adjust_learning_rate 1 80 (some 0) 100 (LRState.mk 2 [1]))).groupLRs := by
  norm_num [adjust_learning_rate]

/-- C1 (amended): outside warmup, for every epoch `< 80` and a factor
that has caught up to `epoch // 30` (as holds in a run from epoch 0),
`adjust_learning_rate` keeps `factor = epoch // 30` — a step function
of the epoch alone — and sets every parameter group's rate to
`args.lr * 0.1 ^ factor`; hence a second call within the same epoch
sets the very same rates.  (For `epoch ≥ 80` the code instead
increments `factor` on every call, so the rate decays within the
epoch.) -/
theorem adjustLR_piecewise_below_80 (argsLr : ℚ) (epoch : ℕ)
    (step step2 : Option ℕ) (len_epoch : ℕ) (s : LRState)
    (h80 : epoch < 80) (hfac : s.factor = epoch / 30)
    (hw1 : 5 ≤ epoch ∨ step = none) (hw2 : 5 ≤ epoch ∨ step2 = none) :
    (adjust_learning_rate argsLr epoch step len_epoch s).factor = epoch / 30 ∧
    (adjust_learning_rate argsLr epoch step len_epoch s).groupLRs =
      s.groupLRs.map (fun _ => argsLr * (1 / 10 : ℚ) ^ (epoch / 30)) ∧
    (adjust_learning_rate argsLr epoch step2 len_epoch
        (adjust_learning_rate argsLr epoch step len_epoch s)).groupLRs =
      (adjust_learning_rate argsLr epoch step len_epoch s).groupLRs.map
        (fun _ => argsLr * (1 / 10 : ℚ) ^ (epoch / 30)) := by
  have key : ∀ (u : LRState) (st : Option ℕ), u.factor = epoch / 30 →
      (5 ≤ epoch ∨ st = none) →
      (adjust_learning_rate argsLr epoch st len_epoch u).factor = epoch / 30 ∧
      (adjust_learning_rate argsLr epoch st len_epoch u).groupLRs =
        u.groupLRs.map (fun _ => argsLr * (1 / 10 : ℚ) ^ (epoch / 30)) := by
    intro u st hu hw
    have hcond : ¬(epoch / 30 > 0 ∧ u.factor < epoch / 30) := by
      rintro ⟨-, h2⟩
      omega
    have h80n : ¬(80 ≤ epoch) := by omega
    cases st with
    | none => simp [adjust_learning_rate, if_neg hcond, if_neg h80n, hu]
    | some st2 =>
      have h5 : 5 ≤ epoch := by
        rcases hw with h | h
        · exact h
        · exact absurd h (by simp)
      have h5n : ¬ epoch < 5 := by omega
      simp [adjust_learning_rate, if_neg hcond, if_neg h80n, if_neg h5n, hu]
  have k1 := key s step hfac hw1
  have k2 := key (adjust_learning_rate argsLr epoch step len_epoch s) step2 k1.1 hw2
  exact ⟨k1.1, k1.2, k2.2⟩

/-- Witness for C1's amended theorem at epoch 35 (factor caught up to
35 // 30 = 1), with the per-epoch call `step = None` of line 470. -/
theorem adjustLR_piecewise_below_80_witness :
    (adjust_learning_rate 1 35 none 10 (LRState.mk 1 [1])).factor = 35 / 30 ∧
    (adjust_learning_rate 1 35 none 10 (LRState.mk 1 [1])).groupLRs =
      (LRState.mk 1 [1]).groupLRs.map (fun _ => (1 : ℚ) * (1 / 10 : ℚ) ^ (35 / 30)) ∧
    (adjust_learning_rate 1 35 none 10
        (adjust_learning_rate 1 35 none 10 (LRState.mk 1 [1]))).groupLRs =
      (adjust_learning_rate 1 35 none 10 (LRState.mk 1 [1])).groupLRs.map
        (fun _ => (1 : ℚ) * (1 / 10 : ℚ) ^ (35 / 30)) :=
  adjustLR_piecewise_below_80 1 35 none none 10 (LRState.mk 1 [1])
    (by decide) (by decide) (by decide) (by decide)

/-- C3: during warmup (`epoch < 5` with a batch step), the base rate
`args.lr * 0.1 ^ factor` (the factor is left untouched then, since
`epoch // 30 = 0` and `epoch < 80`) is multiplied by
`(1 + step + epoch * len_epoch) / (5.0 * len_epoch)`; at the last step
of epoch 4 (`step = len_epoch - 1`) the numerator equals
`5 * len_epoch`, so the rate is exactly the unscaled base rate; and for
`epoch ≥ 5` or `step = None` no warmup scaling is applied. -/
theorem adjustLR_warmup (argsLr : ℚ) (len_epoch : ℕ) (s : LRState)
    (hlen : 0 < len_epoch) :
    (∀ epoch st, epoch < 5 →
      (adjust_learning_rate argsLr epoch (some st) len_epoch s).groupLRs =
        s.groupLRs.map (fun _ =>
          argsLr * (1 / 10 : ℚ) ^ s.factor *
            ((1 + st + epoch * len_epoch : ℕ) : ℚ) / (5 * (len_epoch : ℚ)))) ∧
    ((adjust_learning_rate argsLr 4 (some (len_epoch - 1)) len_epoch s).groupLRs =
      s.groupLRs.map (fun _ => argsLr * (1 / 10 : ℚ) ^ s.factor)) ∧
    (∀ epoch step, 5 ≤ epoch ∨ step = none →
      (adjust_learning_rate argsLr epoch step len_epoch s).groupLRs =
        s.groupLRs.map (fun _ =>
          argsLr * (1 / 10 : ℚ) ^
            (adjust_learning_rate argsLr epoch step len_epoch s).factor)) := by
  have hwarm : ∀ epoch st, epoch < 5 →
      (adjust_learning_rate argsLr epoch (some st) len_epoch s).groupLRs =
        s.groupLRs.map (fun _ =>
          argsLr * (1 / 10 : ℚ) ^ s.factor *
            ((1 + st + epoch * len_epoch : ℕ) : ℚ) / (5 * (len_epoch : ℚ))) := by
    intro epoch st h5
    have hcond : ¬(epoch / 30 > 0 ∧ s.factor < epoch / 30) := by
      rintro ⟨h1, -⟩
      omega
    have h80n : ¬(80 ≤ epoch) := by omega
    simp [adjust_learning_rate, if_neg hcond, if_neg h80n, if_pos h5]
  refine ⟨hwarm, ?_, ?_⟩
  · rw [hwarm 4 (len_epoch - 1) (by omega)]
    have hnum : (1 + (len_epoch - 1) + 4 * len_epoch : ℕ) = 5 * len_epoch := by omega
    rw [hnum]
    have h5l : (5 : ℚ) * (len_epoch : ℚ) ≠ 0 := by
      have : (len_epoch : ℚ) ≠ 0 := Nat.cast_ne_zero.mpr (by omega)
      positivity
    congr 1
    funext x
    push_cast
    rw [mul_div_assoc, div_self h5l, mul_one]
  · intro epoch step hw
    cases step with
    | none => simp [adjust_learning_rate]
    | some st =>
      have h5 : 5 ≤ epoch := by
        rcases hw with h | h
        · exact h
        · exact absurd h (by simp)
      have h5n : ¬ epoch < 5 := by omega
      simp [adjust_learning_rate, if_neg h5n]

/-- Witness for C3 with `len_epoch = 10`, exercising the warmup branch
at epoch 0 step 0, the last warmup step of epoch 4, and the unscaled
branch at epoch 5. -/
theorem adjustLR_warmup_witness :
    (∀ epoch st, epoch < 5 →
      (adjust_learning_rate 2 epoch (some st) 10 (LRState.mk 0 [1])).groupLRs =
        (LRState.mk 0 [1]).groupLRs.map (fun _ =>
          (2 : ℚ) * (1 / 10 : ℚ) ^ (LRState.mk 0 [1]).factor *
            ((1 + st + epoch * 10 : ℕ) : ℚ) / (5 * ((10 : ℕ) : ℚ)))) ∧
    ((adjust_learning_rate 2 4 (some (10 - 1)) 10 (LRState.mk 0 [1])).groupLRs =
      (LRState.mk 0 [1]).groupLRs.map (fun _ =>
        (2 : ℚ) * (1 / 10 : ℚ) ^ (LRState.mk 0 [1]).factor)) ∧
    (∀ epoch step, 5 ≤ epoch ∨ step = none →
      (adjust_learning_rate 2 epoch step 10 (LRState.mk 0 [1])).groupLRs =
        (LRState.mk 0 [1]).groupLRs.map (fun _ =>
          (2 : ℚ) * (1 / 10 : ℚ) ^
            (adjust_learning_rate 2 epoch step 10 (LRState.mk 0 [1])).factor)) :=
  adjustLR_warmup 2 10 (LRState.mk 0 [1]) (by decide)

/-- C6: in every iteration of the train loop (outside test mode) each
of the six core operations happens exactly once, in the fixed order
`adjust_learning_rate`, forward, loss, `zero_grad`, `backward`,
`step`; and the meters are updated exactly on the iterations with
`i % args.print_freq == 0` or `i == train_loader_len`. -/
theorem trainIter_order_and_meter_guard (pf i len : ℕ) :
    ((trainIter pf false i len).count TrainOp.adjustLR = 1 ∧
     (trainIter pf false i len).count TrainOp.forward = 1 ∧
     (trainIter pf false i len).count TrainOp.lossCompute = 1 ∧
     (trainIter pf false i len).count TrainOp.zeroGrad = 1 ∧
     (trainIter pf false i len).count TrainOp.backward = 1 ∧
     (trainIter pf false i len).count TrainOp.optStep = 1) ∧
    ((trainIter pf false i len).indexOf TrainOp.adjustLR <
       (trainIter pf false i len).indexOf TrainOp.forward ∧
     (trainIter pf false i len).indexOf TrainOp.forward <
       (trainIter pf false i len).indexOf TrainOp.lossCompute ∧
     (trainIter pf false i len).indexOf TrainOp.lossCompute <
       (trainIter pf false i len).indexOf TrainOp.zeroGrad ∧
     (trainIter pf false i len).indexOf TrainOp.zeroGrad <
       (trainIter pf false i len).indexOf TrainOp.backward ∧
     (trainIter pf false i len).indexOf TrainOp.backward <
       (trainIter pf false i len).indexOf TrainOp.optStep) ∧
    (TrainOp.meterUpdate ∈ trainIter pf false i len ↔ (i % pf = 0 ∨ i = len)) := by
  by_cases h : i % pf = 0 ∨ i = len
  · have e : trainIter pf false i len =
        [TrainOp.adjustLR, TrainOp.forward, TrainOp.lossCompute, TrainOp.zeroGrad,
         TrainOp.backward, TrainOp.optStep, TrainOp.meterUpdate] := by
      simp [trainIter, h]
    rw [e]
    exact ⟨by decide, by decide, iff_of_true (by decide) h⟩
  · have e : trainIter pf false i len =
        [TrainOp.adjustLR, TrainOp.forward, TrainOp.lossCompute, TrainOp.zeroGrad,
         TrainOp.backward, TrainOp.optStep] := by
      simp [trainIter, h]
    rw [e]
    exact ⟨by decide, by decide, iff_of_false (by decide) h⟩

/-- C7: `main` runs a train/validate loop: with `--evaluate` it runs
validate exactly once and never trains; otherwise (test mode off), for
every epoch in `range(args.start_epoch, args.epochs)` it performs the
contiguous block train, validate, `epoch_loss_logic`,
`adjust_learning_rate`, reset of the train loader, reset of the
validation loader, and trains exactly for those epochs. -/
theorem main_epoch_loop (start_epoch epochs e : ℕ) (t : Bool)
    (he1 : start_epoch ≤ e) (he2 : e < epochs) :
    mainEvents true t start_epoch epochs = [MainOp.validateOnly] ∧
    (∀ e2, MainOp.trainEpoch e2 ∉ mainEvents true t start_epoch epochs) ∧
    List.IsInfix (mainEpochBlock e) (mainEvents false false start_epoch epochs) ∧
    (∀ e2, MainOp.trainEpoch e2 ∈ mainEvents false false start_epoch epochs ↔
      (start_epoch ≤ e2 ∧ e2 < epochs)) := by
  have hev : mainEvents true t start_epoch epochs = [MainOp.validateOnly] := by
    simp [mainEvents]
  have hrange : ∀ e2, e2 ∈ List.range' start_epoch (epochs - start_epoch) ↔
      (start_epoch ≤ e2 ∧ e2 < epochs) := by
    intro e2
    rw [List.mem_range']
    constructor
    · rintro ⟨i, hi, rfl⟩
      omega
    · intro hb
      exact ⟨e2 - start_epoch, by omega, by omega⟩
  have hme : mainEvents false false start_epoch epochs =
      (List.range' start_epoch (epochs - start_epoch)).flatMap mainEpochBlock := by
    simp [mainEvents]
  refine ⟨hev, ?_, ?_, ?_⟩
  · intro e2
    rw [hev]
    simp
  · obtain ⟨pre, post, hsplit⟩ :=
      List.append_of_mem ((hrange e).mpr ⟨he1, he2⟩)
    refine ⟨pre.flatMap mainEpochBlock, post.flatMap mainEpochBlock, ?_⟩
    rw [hme, hsplit, List.flatMap_append, List.flatMap_cons, List.append_assoc]
  · intro e2
    have hblock : ∀ a, MainOp.trainEpoch e2 ∈ mainEpochBlock a ↔ a = e2 := by
      intro a
      simp [mainEpochBlock, eq_comm]
    rw [hme, List.mem_flatMap]
    constructor
    · rintro ⟨a, ha, hmem⟩
      rw [hblock a] at hmem
      subst hmem
      exact (hrange a).mp ha
    · intro hb
      exact ⟨e2, (hrange e2).mpr hb, (hblock e2).mpr rfl⟩

/-- Witness for C7 with `start_epoch = 0`, `epochs = 2`, epoch 1. -/
theorem main_epoch_loop_witness :
    mainEvents true false 0 2 = [MainOp.validateOnly] ∧
    (∀ e2, MainOp.trainEpoch e2 ∉ mainEvents true false 0 2) ∧
    List.IsInfix (mainEpochBlock 1) (mainEvents false false 0 2) ∧
    (∀ e2, MainOp.trainEpoch e2 ∈ mainEvents false false 0 2 ↔ (0 ≤ e2 ∧ e2 < 2)) :=
  main_epoch_loop 0 2 1 false (by decide) (by decide)

theorem topkIdx_nodup (row : List ℚ) (k : ℕ) : (topkIdx row k).Nodup :=
  (List.take_sublist _ _).nodup
    ((sortBy_perm (topkBefore row) (List.range row.length)).symm.nodup
      (List.nodup_range _))

theorem topkIdx_take (row : List ℚ) {k maxk : ℕ} (h : k ≤ maxk) :
    (topkIdx row maxk).take k = topkIdx row k := by
  simp only [topkIdx, List.take_take, Nat.min_eq_left h]

theorem mem_topkIdx_mono (row : List ℚ) {k1 k2 a : ℕ} (h : k1 ≤ k2)
    (ha : a ∈ topkIdx row k1) : a ∈ topkIdx row k2 := by
  rw [← topkIdx_take row h] at ha
  exact List.mem_of_mem_take ha

theorem le_foldr_max (l : List ℕ) (a : ℕ) (h : a ∈ l) : a ≤ l.foldr max 0 := by
  induction l with
  | nil => cases h
  | cons b l ih =>
    rcases List.mem_cons.mp h with h1 | h2
    · subst h1
      exact le_max_left _ _
    · exact le_trans (ih h2) (le_max_right _ _)

/-- The pair sum computed from `correct[:k]` counts exactly the samples
whose label occurs among their top-`k` predicted classes: since the
top-`maxk` indices of a row are distinct, each sample contributes at
most one matching pair. -/
theorem correct_k_eq_countP (output : List (List ℚ)) (target : List ℕ)
    (k maxk : ℕ) (hk : k ≤ maxk) :
    correct_k (output.map (fun row => topkIdx row maxk)) target k =
      (output.zip target).countP (fun rt => decide (rt.2 ∈ topkIdx rt.1 k)) := by
  induction output generalizing target with
  | nil => simp [correct_k]
  | cons row rows ih =>
    cases target with
    | nil => simp [correct_k]
    | cons t ts =>
      have hcount : ((topkIdx row maxk).take k).count t =
          (if t ∈ topkIdx row k then 1 else 0) := by
        rw [topkIdx_take row hk]
        by_cases hm : t ∈ topkIdx row k
        · rw [if_pos hm]
          exact List.count_eq_one_of_mem (topkIdx_nodup row k) hm
        · rw [if_neg hm]
          exact List.count_eq_zero.mpr hm
      simp only [correct_k, List.map_cons, List.zip_cons_cons, List.sum_cons,
        List.countP_cons] at ih ⊢
      rw [hcount, ih]
      simp only [decide_eq_true_eq]
      by_cases hm : t ∈ topkIdx row k <;> simp [hm] <;> omega

/-- C4: for an output matrix with at least `max(topk)` classes per row
and a target of length `batch_size > 0` equal to the batch size of the
output, `accuracy` returns, for each `k` in `topk` in order,
`100 / batch_size` times the number of samples whose true label is
among the `k` highest-scoring classes of their output row; every
returned value lies in `[0, 100]`, and the value is non-decreasing in
`k`. -/
theorem accuracy_precision_at_k (output : List (List ℚ)) (target : List ℕ)
    (topk : List ℕ)
    (hcls : ∀ row ∈ output, topk.foldr max 0 ≤ row.length)
    (hlen : output.length = target.length) (hbs : 0 < target.length) :
    accuracy output target topk =
      topk.map (fun k =>
        (((output.zip target).countP
            (fun rt => decide (rt.2 ∈ topkIdx rt.1 k))) : ℚ) *
          (100 / (target.length : ℚ))) ∧
    (∀ v ∈ accuracy output target topk, 0 ≤ v ∧ v ≤ 100) ∧
    (∀ k1 k2, k1 ≤ k2 →
      (((output.zip target).countP
          (fun rt => decide (rt.2 ∈ topkIdx rt.1 k1))) : ℚ) *
          (100 / (target.length : ℚ)) ≤
        (((output.zip target).countP
            (fun rt => decide (rt.2 ∈ topkIdx rt.1 k2))) : ℚ) *
          (100 / (target.length : ℚ))) := by
  clear hcls
  have hbsne : ((target.length : ℕ) : ℚ) ≠ 0 := Nat.cast_ne_zero.mpr (by omega)
  have hcountle : ∀ k, (output.zip target).countP
      (fun rt => decide (rt.2 ∈ topkIdx rt.1 k)) ≤ target.length := by
    intro k
    calc (output.zip target).countP (fun rt => decide (rt.2 ∈ topkIdx rt.1 k))
        ≤ (output.zip target).length := List.countP_le_length _
      _ ≤ target.length := by
          rw [List.length_zip]
          exact inf_le_right
  have heq : accuracy output target topk =
      topk.map (fun k =>
        (((output.zip target).countP
            (fun rt => decide (rt.2 ∈ topkIdx rt.1 k))) : ℚ) *
          (100 / (target.length : ℚ))) := by
    simp only [accuracy]
    apply List.map_congr_left
    intro k hk
    rw [correct_k_eq_countP output target k (topk.foldr max 0)
      (le_foldr_max topk k hk)]
  refine ⟨heq, ?_, ?_⟩
  · intro v hv
    rw [heq, List.mem_map] at hv
    obtain ⟨k, -, rfl⟩ := hv
    constructor
    · positivity
    · have hc := hcountle k
      calc (((output.zip target).countP
            (fun rt => decide (rt.2 ∈ topkIdx rt.1 k))) : ℚ) *
            (100 / (target.length : ℚ))
          ≤ ((target.length : ℕ) : ℚ) * (100 / (target.length : ℚ)) := by
            apply mul_le_mul_of_nonneg_right (by exact_mod_cast hc)
            positivity
        _ = 100 := by
            rw [mul_comm, div_mul_cancel₀ _ hbsne]
  · intro k1 k2 hk12
    apply mul_le_mul_of_nonneg_right ?_ (by positivity)
    have : (output.zip target).countP
        (fun rt => decide (rt.2 ∈ topkIdx rt.1 k1)) ≤
      (output.zip target).countP
        (fun rt => decide (rt.2 ∈ topkIdx rt.1 k2)) := by
      apply List.countP_mono_left
      intro rt hrt h1
      simp only [decide_eq_true_eq] at h1 ⊢
      exact mem_topkIdx_mono rt.1 hk12 h1
    exact_mod_cast this

/-- Witness for C4 on a 3-sample, 3-class batch with `topk = (1, 2)`. -/
theorem accuracy_precision_at_k_witness :
    accuracy [[1, 5, 3], [9, 2, 7], [0, 1, 2]] [1, 2, 2] [1, 2] =
      ([1, 2] : List ℕ).map (fun k =>
        ((([[(1 : ℚ), 5, 3], [9, 2, 7], [0, 1, 2]].zip [1, 2, 2]).countP
            (fun rt => decide (rt.2 ∈ topkIdx rt.1 k))) : ℚ) *
          (100 / (([1, 2, 2] : List ℕ).length : ℚ))) ∧
    (∀ v ∈ accuracy [[1, 5, 3], [9, 2, 7], [0, 1, 2]] [1, 2, 2] [1, 2],
      0 ≤ v ∧ v ≤ 100) ∧
    (∀ k1 k2, k1 ≤ k2 →
      ((([[(1 : ℚ), 5, 3], [9, 2, 7], [0, 1, 2]].zip [1, 2, 2]).countP
          (fun rt => decide (rt.2 ∈ topkIdx rt.1 k1))) : ℚ) *
          (100 / (([1, 2, 2] : List ℕ).length : ℚ)) ≤
        ((([[(1 : ℚ), 5, 3], [9, 2, 7], [0, 1, 2]].zip [1, 2, 2]).countP
            (fun rt => decide (rt.2 ∈ topkIdx rt.1 k2))) : ℚ) *
          (100 / (([1, 2, 2] : List ℕ).length : ℚ))) :=
  accuracy_precision_at_k [[1, 5, 3], [9, 2, 7], [0, 1, 2]] [1, 2, 2] [1, 2]
    (by decide) (by decide) (by decide)

end ImagenetDali
